import Mathlib

/-!
Shallow embedding of the cron spec compiler (`parser.go` of labulaka521/cron)
in Lean 4.  Strings are modelled as `List Char`; Go's `uint64` masks are
modelled as `Nat` with explicit reduction modulo `2 ^ 64` where Go overflow
semantics matter; fallible Go functions returning `(value, error)` become
`Except ParseErr value`; a Go runtime panic is modelled by the `none` case of
an outer `Option` layer.
-/

/-- Go strings are modelled as lists of characters. -/
abbrev Str := List Char

/-- Mirrors Go `strings.Split(s, sep)` for a single-character separator,
generalised to a predicate: split at every separator, keeping empty pieces.
The result is always non-empty (Go: `Split("", sep) = [""]`). -/
def splitPred (p : Char → Bool) : Str → List Str
  | [] => [[]]
  | a :: rest =>
    if p a then [] :: splitPred p rest
    else
      match splitPred p rest with
      | [] => [[a]]
      | t :: ts => (a :: t) :: ts

/-- Go `strings.Split(s, string c)` for a one-character separator. -/
def splitOnChar (c : Char) (s : Str) : List Str :=
  splitPred (fun a => a == c) s

/-- Go `strings.FieldsFunc(s, f)`: the maximal runs of characters not
satisfying `f`; empty pieces are discarded. -/
def fieldsFunc (p : Char → Bool) (s : Str) : List Str :=
  (splitPred p s).filter (fun t => !t.isEmpty)

/-- The white-space test used by Go `strings.Fields` / `strings.TrimSpace`,
restricted to the ASCII space characters (the specs in play contain only
ASCII). -/
def goIsSpace (c : Char) : Bool :=
  c == ' ' || c == '\t' || c == '\n' || c == '\r'

/-- Go `strings.TrimSpace`. -/
def trimSpace (s : Str) : Str :=
  ((s.dropWhile goIsSpace).reverse.dropWhile goIsSpace).reverse

/-- Go `strings.Index(s, string c)` for a one-character needle: the index of
the first occurrence, `-1` when absent. -/
def indexChar (c : Char) (s : Str) : Int :=
  match s.findIdx? (fun a => a == c) with
  | some i => (i : Int)
  | none => -1

/-- Go `strings.ToLower` on ASCII. -/
def toLowerStr (s : Str) : Str := s.map Char.toLower

/-- Numeric value of a digit string (no sign), most significant first. -/
def digitsVal (s : Str) : Nat :=
  s.foldl (fun acc c => acc * 10 + (c.toNat - '0'.toNat)) 0

/-- Go `strconv.Atoi`: an optional sign followed by at least one digit;
anything else is an error (`none`).  Overflow of 64-bit integers is not
modelled: every integer the claims touch is small. -/
def atoi (s : Str) : Option Int :=
  match s with
  | [] => none
  | '+' :: rest =>
    if rest ≠ [] ∧ rest.all Char.isDigit then some (digitsVal rest) else none
  | '-' :: rest =>
    if rest ≠ [] ∧ rest.all Char.isDigit then some (-(digitsVal rest : Int)) else none
  | _ => if s.all Char.isDigit then some (digitsVal s) else none

/-- The structured counterparts of the `fmt.Errorf` messages of `parser.go`:
each constructor carries exactly the data interpolated into the corresponding
format string, so "the error names the sub-expression and the bound" is
witnessed by the payload. -/
inductive ParseErr where
  | emptySpec : ParseErr
  | badLocation (name : Str) : ParseErr
  | noDescriptors (spec : Str) : ParseErr
  | unrecognizedDescriptor (s : Str) : ParseErr
  | badDuration (s : Str) : ParseErr
  | multipleOptionals : ParseErr
  | wrongFieldCountExact (want got : Nat) (fields : List Str) : ParseErr
  | wrongFieldCountRange (lo hi got : Nat) (fields : List Str) : ParseErr
  | unknownOptional : ParseErr
  | failedParseInt (s : Str) : ParseErr
  | negativeNumber (n : Int) (s : Str) : ParseErr
  | tooManyHyphens (expr : Str) : ParseErr
  | tooManySlashes (expr : Str) : ParseErr
  | belowMinimum (start min : Nat) (expr : Str) : ParseErr
  | aboveMaximum (endv max : Nat) (expr : Str) : ParseErr
  | startBeyondEnd (start endv : Nat) (expr : Str) : ParseErr
  | zeroStep (expr : Str) : ParseErr
deriving DecidableEq

/-- Modelled from the spec: per-field bounds metadata (`bounds` lives in a
repository file not present under src/). `min`/`max` are the inclusive legal
range; `names` is the optional case-insensitive name table, non-`none` only
for the month and day-of-week fields. -/
structure bounds where
  min : Nat
  max : Nat
  names : Option (Str → Option Nat)

/-- Modelled from the spec: month name table (`"jan".."dec"` map to 1..12). -/
def monthNames (s : Str) : Option Nat :=
  List.lookup s
    [("jan".toList, 1), ("feb".toList, 2), ("mar".toList, 3), ("apr".toList, 4),
     ("may".toList, 5), ("jun".toList, 6), ("jul".toList, 7), ("aug".toList, 8),
     ("sep".toList, 9), ("oct".toList, 10), ("nov".toList, 11), ("dec".toList, 12)]

/-- Modelled from the spec: weekday name table (`"sun".."sat"` map to 0..6). -/
def dowNames (s : Str) : Option Nat :=
  List.lookup s
    [("sun".toList, 0), ("mon".toList, 1), ("tue".toList, 2), ("wed".toList, 3),
     ("thu".toList, 4), ("fri".toList, 5), ("sat".toList, 6)]

/-- Modelled from the spec: the seconds field bounds (0..59). -/
def seconds : bounds := ⟨0, 59, none⟩

/-- Modelled from the spec: the minutes field bounds (0..59). -/
def minutes : bounds := ⟨0, 59, none⟩

/-- Modelled from the spec: the hours field bounds (0..23). -/
def hours : bounds := ⟨0, 23, none⟩

/-- Modelled from the spec: the day-of-month field bounds (1..31). -/
def dom : bounds := ⟨1, 31, none⟩

/-- Modelled from the spec: the month field bounds (1..12) with names. -/
def months : bounds := ⟨1, 12, some monthNames⟩

/-- Modelled from the spec: the day-of-week field bounds (0..6) with names. -/
def dow : bounds := ⟨0, 6, some dowNames⟩

/-- Modelled from the spec: the reserved wildcard marker, bit 63 of a mask. -/
def starBit : Nat := 1 <<< 63

/-- Go `math.MaxUint64`. -/
def maxUint64 : Nat := 2 ^ 64 - 1

/-- The `step > 1` loop of `getBits`: `for i := min; i <= max; i += step`,
each iteration OR-ing in `1 << i` with Go `uint64` overflow (`% 2^64`).
The structural `fuel` argument only bounds the number of iterations; since
each iteration advances `i` by `step ≥ 1`, a fuel of `mx + 1 - i` is never
exhausted (Go's loop never terminates when `step = 0` and `i ≤ max`;
`getRange` rejects `step = 0` before ever calling `getBits`). -/
def getBitsLoop (step mx : Nat) : Nat → Nat → Nat
  | _, 0 => 0
  | i, fuel + 1 =>
    if i ≤ mx then ((1 <<< i) % 2 ^ 64) ||| getBitsLoop step mx (i + step) fuel
    else 0

/-- `getBits` of `parser.go`: all bits in `[mn, mx]` modulo the step.  For
step 1 the Go closed form `^(MaxUint64 << (max+1)) & (MaxUint64 << min)` is
reproduced with shifts reduced modulo `2^64` and `^` as XOR with all-ones. -/
def getBits (mn mx step : Nat) : Nat :=
  if step = 1 then
    (maxUint64 ^^^ ((maxUint64 <<< (mx + 1)) % 2 ^ 64)) &&& ((maxUint64 <<< mn) % 2 ^ 64)
  else getBitsLoop step mx mn (mx + 1 - mn)

/-- `all` of `parser.go`: every bit within the bounds, plus the star bit. -/
def all (r : bounds) : Nat :=
  getBits r.min r.max 1 ||| starBit

/-- `mustParseInt` of `parser.go`. -/
def mustParseInt (expr : Str) : Except ParseErr Nat :=
  match atoi expr with
  | none => .error (.failedParseInt expr)
  | some num =>
    if num < 0 then .error (.negativeNumber num expr) else .ok num.toNat

/-- `parseIntOrName` of `parser.go`. -/
def parseIntOrName (expr : Str) (names : Option (Str → Option Nat)) :
    Except ParseErr Nat :=
  match names with
  | some tbl =>
    match tbl (toLowerStr expr) with
    | some namedInt => .ok namedInt
    | none => mustParseInt expr
  | none => mustParseInt expr

/-- The four final validations of `getRange` (`parser.go` lines 325-336),
in source order. -/
def rangeChecks (start endv step : Nat) (expr : Str) (r : bounds) :
    Except ParseErr Unit :=
  if start < r.min then .error (.belowMinimum start r.min expr)
  else if endv > r.max then .error (.aboveMaximum endv r.max expr)
  else if start > endv then .error (.startBeyondEnd start endv expr)
  else if step = 0 then .error (.zeroStep expr)
  else .ok ()

/-- The first phase of `getRange`: resolve `start`, `end` and `extra` from
the `lowAndHigh` split of the range part.  A first segment of `*`/`?` takes
the full bounds and marks the star bit; otherwise the segment(s) are
resolved as integers or names, with "too many hyphens" for three or more
segments. -/
def getRangeStage1 (expr : Str) (lowAndHigh : List Str) (r : bounds) :
    Except ParseErr (Nat × Nat × Nat) :=
  if lowAndHigh.headD [] == "*".toList || lowAndHigh.headD [] == "?".toList then
    .ok (r.min, r.max, starBit)
  else
    match parseIntOrName (lowAndHigh.headD []) r.names with
    | .error e => .error e
    | .ok start =>
      match lowAndHigh with
      | [_] => .ok (start, start, 0)
      | [_, hi] =>
        match parseIntOrName hi r.names with
        | .error e => .error e
        | .ok endv => .ok (start, endv, 0)
      | _ => .error (.tooManyHyphens expr)

/-- The second phase of `getRange`: resolve the step from the `/`-split.  No
step part means step 1; with a step part, the `N/step` shorthand re-points
`end` to the field maximum when the range was a single value, and a step
greater than 1 clears `extra`; three or more parts are "too many slashes". -/
def getRangeStage2 (expr : Str) (rangeAndStep : List Str) (singleDigit : Bool)
    (endv extra0 : Nat) (r : bounds) : Except ParseErr (Nat × Nat × Nat) :=
  match rangeAndStep with
  | [_] => .ok (1, endv, extra0)
  | [_, st] =>
    match mustParseInt st with
    | .error e => .error e
    | .ok step =>
      .ok (step, if singleDigit then r.max else endv,
           if step > 1 then 0 else extra0)
  | _ => .error (.tooManySlashes expr)

/-- `getRange` of `parser.go`: compile one sub-expression
`number | number "-" number [ "/" number ]` (or `*`/`?`) against bounds `r`:
the two resolution phases above followed by the four validations and the
final `getBits ... | extra`. -/
def getRange (expr : Str) (r : bounds) : Except ParseErr Nat :=
  let rangeAndStep := splitOnChar '/' expr
  let lowAndHigh := splitOnChar '-' (rangeAndStep.headD [])
  let singleDigit := lowAndHigh.length == 1
  match getRangeStage1 expr lowAndHigh r with
  | .error e => .error e
  | .ok (start, endv, extra0) =>
    match getRangeStage2 expr rangeAndStep singleDigit endv extra0 r with
    | .error e => .error e
    | .ok (step, endf, extra) =>
      match rangeChecks start endf step expr r with
      | .error e => .error e
      | .ok _ => .ok (getBits start endf step ||| extra)

/-- The accumulation loop of `getField`: OR together the masks of the
comma-separated sub-expressions, stopping at the first error. -/
def getFieldGo (r : bounds) : List Str → Nat → Except ParseErr Nat
  | [], bits => .ok bits
  | e :: rest, bits =>
    match getRange e r with
    | .error err => .error err
    | .ok bit => getFieldGo r rest (bits ||| bit)

/-- `getField` of `parser.go`: a field is a comma-separated list of ranges;
empty pieces are discarded by `strings.FieldsFunc`. -/
def getField (field : Str) (r : bounds) : Except ParseErr Nat :=
  getFieldGo r (fieldsFunc (fun c => c == ',') field) 0

/-- The `ParseOption` flag constants of `parser.go` (`1 << iota`). -/
def Second : Nat := 1

/-- `SecondOptional` flag. -/
def SecondOptional : Nat := 2

/-- `Minute` flag. -/
def Minute : Nat := 4

/-- `Hour` flag. -/
def Hour : Nat := 8

/-- `Dom` flag. -/
def Dom : Nat := 16

/-- `Month` flag. -/
def Month : Nat := 32

/-- `Dow` flag. -/
def Dow : Nat := 64

/-- `DowOptional` flag. -/
def DowOptional : Nat := 128

/-- `Descriptor` flag. -/
def Descriptor : Nat := 256

/-- The `places` table of `parser.go`: canonical field order. -/
def places : List Nat := [Second, Minute, Hour, Dom, Month, Dow]

/-- The `defaults` table of `parser.go`. -/
def defaults : List Str :=
  ["0".toList, "0".toList, "0".toList, "*".toList, "*".toList, "*".toList]

/-- The two `options |= ...` promotions at the top of `normalizeFields`:
an optional flag implies its field flag. -/
def effOptions (options : Nat) : Nat :=
  let options := if options &&& SecondOptional > 0 then options ||| Second else options
  if options &&& DowOptional > 0 then options ||| Dow else options

/-- Number of optional flags set (the `optionals` counter). -/
def optCount (options : Nat) : Nat :=
  (if options &&& SecondOptional > 0 then 1 else 0) +
    (if options &&& DowOptional > 0 then 1 else 0)

/-- The `max` counter of `normalizeFields`: how many canonical fields the
(promoted) options select. -/
def maxCount (options : Nat) : Nat :=
  ((places.filter fun place => effOptions options &&& place > 0)).length

/-- The `min` counter of `normalizeFields`. -/
def minCount (options : Nat) : Nat := maxCount options - optCount options

/-- The final distribution loop of `normalizeFields`: walk the canonical
places (paired with their defaults); a configured place consumes the next
user token, an unconfigured one keeps its default.  `none` models the Go
panic `fields[n]` would raise were the token list too short (unreachable
after the count validation). -/
def expandFields (options : Nat) : List (Nat × Str) → List Str → Option (List Str)
  | [], _ => some []
  | pd :: rest, fields =>
    if options &&& pd.1 > 0 then
      match fields with
      | [] => none
      | f :: fs => (expandFields options rest fs).map (f :: ·)
    else (expandFields options rest fields).map (pd.2 :: ·)

/-- The distribution step shared by every non-error exit of
`normalizeFields` (the code after the optional-synthesis `switch`).  The
outer `Option` is the panic layer (never `none` after the count validation,
see `expandFields`). -/
def normalizeTail (options : Nat) (fields : List Str) :
    Option (Except ParseErr (List Str)) :=
  match expandFields options (places.zip defaults) fields with
  | none => none
  | some l => some (.ok l)

/-- `normalizeFields` of `parser.go`: validate the optional flags and the
token count, synthesize the missing optional token, then distribute tokens
and defaults over the six canonical fields. -/
def normalizeFields (fields : List Str) (options : Nat) :
    Option (Except ParseErr (List Str)) :=
  let optionals := optCount options
  let options := effOptions options
  if optionals > 1 then some (.error .multipleOptionals)
  else
    let mx := (places.filter fun place => options &&& place > 0).length
    let mn := mx - optionals
    if fields.length < mn ∨ fields.length > mx then
      some (.error (if mn = mx then .wrongFieldCountExact mn fields.length fields
        else .wrongFieldCountRange mn mx fields.length fields))
    else
      if mn < mx ∧ fields.length = mn then
        if options &&& DowOptional > 0 then
          normalizeTail options (fields ++ [defaults.getD 5 []])
        else if options &&& SecondOptional > 0 then
          normalizeTail options (defaults.getD 0 [] :: fields)
        else some (.error .unknownOptional)
      else normalizeTail options fields

/-- The resolved time location attached to a schedule.  `Local` is Go's
`time.Local`; `named` is the result of `time.LoadLocation`. -/
inductive Location where
  | Local : Location
  | named (s : Str) : Location
deriving DecidableEq

/-- Modelled from the spec: `time.LoadLocation` resolves a timezone name (an
external, non-network lookup).  Name validity is environment data the spec
does not enumerate, so resolution is modelled as always succeeding; no claim
depends on an unresolvable name. -/
def loadLocation (s : Str) : Except Unit Location := .ok (.named s)

/-- Modelled from the spec: the external duration parser behind `@every`
(`time.ParseDuration`); its output is only handed to the fixed-interval
collaborator, so it is modelled as an opaque success.  No claim depends on
the parsed value. -/
def parseDuration (_ : Str) : Except Unit Int := .ok 0

/-- `SpecSchedule` of the repository (its definition lives in a file not
present under src/; the six mask fields and the location are as the spec's
Compiled Schedule describes). -/
structure SpecSchedule where
  Second : Nat
  Minute : Nat
  Hour : Nat
  Dom : Nat
  Month : Nat
  Dow : Nat
  Location : Location
deriving DecidableEq

/-- The `Schedule` interface: either a compiled six-mask schedule or the
fixed-interval `@every` variant. -/
inductive Schedule where
  | spec (s : SpecSchedule) : Schedule
  | every (d : Int) : Schedule
deriving DecidableEq

/-- `parseDescriptor` of `parser.go`. -/
def parseDescriptor (descriptor : Str) (loc : Location) :
    Except ParseErr Schedule :=
  if descriptor == "@yearly".toList || descriptor == "@annually".toList then
    .ok (.spec ⟨1 <<< seconds.min, 1 <<< minutes.min, 1 <<< hours.min,
      1 <<< dom.min, 1 <<< months.min, all dow, loc⟩)
  else if descriptor == "@monthly".toList then
    .ok (.spec ⟨1 <<< seconds.min, 1 <<< minutes.min, 1 <<< hours.min,
      1 <<< dom.min, all months, all dow, loc⟩)
  else if descriptor == "@weekly".toList then
    .ok (.spec ⟨1 <<< seconds.min, 1 <<< minutes.min, 1 <<< hours.min,
      all dom, all months, 1 <<< dow.min, loc⟩)
  else if descriptor == "@daily".toList || descriptor == "@midnight".toList then
    .ok (.spec ⟨1 <<< seconds.min, 1 <<< minutes.min, 1 <<< hours.min,
      all dom, all months, all dow, loc⟩)
  else if descriptor == "@hourly".toList then
    .ok (.spec ⟨1 <<< seconds.min, 1 <<< minutes.min, all hours,
      all dom, all months, all dow, loc⟩)
  else if List.isPrefixOf "@every ".toList descriptor then
    match parseDuration (descriptor.drop 7) with
    | .ok d => .ok (.every d)
    | .error _ => .error (.badDuration descriptor)
  else .error (.unrecognizedDescriptor descriptor)

/-- A configured `Parser` (`parser.go`). -/
structure Parser where
  options : Nat

/-- The timezone-extraction prologue of `Parse`: on a `TZ=`/`CRON_TZ=`
prefix, Go slices `spec[eq+1 : i]` where `i` is the index of the first space
(`-1` when there is none) — a slice with `i < eq+1` or `i > len(spec)`
panics, modelled by `none`. -/
def extractTZ (spec : Str) : Option (Except ParseErr (Location × Str)) :=
  if List.isPrefixOf "TZ=".toList spec || List.isPrefixOf "CRON_TZ=".toList spec then
    let i := indexChar ' ' spec
    let eq := indexChar '=' spec
    if i < eq + 1 ∨ (spec.length : Int) < i then none
    else
      let name := (spec.take i.toNat).drop (eq + 1).toNat
      match loadLocation name with
      | .error _ => some (.error (.badLocation name))
      | .ok loc => some (.ok (loc, trimSpace (spec.drop i.toNat)))
  else some (.ok (.Local, spec))

/-- The per-field compilation chain of `Parse`: the six `field(...)` calls in
source order, short-circuiting on the first error (Go's shared `err`
variable makes later calls no-ops once one has failed). -/
def compileFields (fs : List Str) (loc : Location) : Except ParseErr Schedule :=
  match getField (fs.getD 0 []) seconds with
  | .error e => .error e
  | .ok second =>
    match getField (fs.getD 1 []) minutes with
    | .error e => .error e
    | .ok minute =>
      match getField (fs.getD 2 []) hours with
      | .error e => .error e
      | .ok hour =>
        match getField (fs.getD 3 []) dom with
        | .error e => .error e
        | .ok dayofmonth =>
          match getField (fs.getD 4 []) months with
          | .error e => .error e
          | .ok month =>
            match getField (fs.getD 5 []) dow with
            | .error e => .error e
            | .ok dayofweek =>
              .ok (.spec ⟨second, minute, hour, dayofmonth, month, dayofweek, loc⟩)

/-- `Parser.Parse` of `parser.go`.  The outer `Option` is the panic layer:
`none` means the Go code panics instead of returning. -/
def Parser.Parse (p : Parser) (spec : Str) : Option (Except ParseErr Schedule) :=
  if spec.isEmpty then some (.error .emptySpec)
  else
    match extractTZ spec with
    | none => none
    | some (.error e) => some (.error e)
    | some (.ok (loc, spec)) =>
      if List.isPrefixOf "@".toList spec then
        if p.options &&& Descriptor = 0 then some (.error (.noDescriptors spec))
        else some (parseDescriptor spec loc)
      else
        let fields := fieldsFunc goIsSpace spec
        match normalizeFields fields p.options with
        | none => none
        | some (.error e) => some (.error e)
        | some (.ok fs) => some (compileFields fs loc)

/-- The `standardParser` of `parser.go`. -/
def standardParser : Parser :=
  ⟨Minute ||| Hour ||| Dom ||| Month ||| Dow ||| Descriptor⟩

/-- `ParseStandard` of `parser.go`. -/
def ParseStandard (standardSpec : Str) : Option (Except ParseErr Schedule) :=
  standardParser.Parse standardSpec

lemma splitPred_ne_nil (p : Char → Bool) (s : Str) : splitPred p s ≠ [] := by
  cases s with
  | nil => simp [splitPred]
  | cons a rest =>
    simp only [splitPred]
    split
    · simp
    · split <;> simp

lemma splitPred_all_not (p : Char → Bool) (s : Str)
    (h : ∀ c ∈ s, p c = false) : splitPred p s = [s] := by
  induction s with
  | nil => rfl
  | cons a rest ih =>
    have ha : p a = false := h a (List.mem_cons_self a rest)
    have hrest : splitPred p rest = [rest] := ih fun c hc => h c (List.mem_cons_of_mem a hc)
    simp [splitPred, ha, hrest]

lemma splitPred_append (p : Char → Bool) (a b : Str) (c : Char)
    (ha : ∀ x ∈ a, p x = false) (hc : p c = true) :
    splitPred p (a ++ c :: b) = a :: splitPred p b := by
  induction a with
  | nil => simp [splitPred, hc]
  | cons x a ih =>
    have hx : p x = false := ha x (List.mem_cons_self x a)
    have ha2 : splitPred p (a ++ c :: b) = a :: splitPred p b :=
      ih fun y hy => ha y (List.mem_cons_of_mem x hy)
    simp [splitPred, hx, ha2]

lemma splitOnChar_append (c : Char) (a b : Str)
    (ha : c ∉ a) :
    splitOnChar c (a ++ c :: b) = a :: splitOnChar c b := by
  refine splitPred_append _ a b c (fun x hx => ?_) (by simp)
  simp only [beq_eq_false_iff_ne, ne_eq]
  exact fun hxc => ha (hxc ▸ hx)

lemma splitOnChar_no_sep (c : Char) (s : Str) (h : c ∉ s) :
    splitOnChar c s = [s] := by
  refine splitPred_all_not _ s fun x hx => ?_
  simp only [beq_eq_false_iff_ne, ne_eq]
  exact fun hxc => h (hxc ▸ hx)

lemma fieldsFunc_all_sep (p : Char → Bool) (s : Str)
    (h : ∀ c ∈ s, p c = true) : fieldsFunc p s = [] := by
  induction s with
  | nil => rfl
  | cons a rest ih =>
    have ha : p a = true := h a (List.mem_cons_self a rest)
    have hrest := ih fun c hc => h c (List.mem_cons_of_mem a hc)
    simp only [fieldsFunc, splitPred, ha, if_true, List.filter]
    simpa [fieldsFunc] using hrest

/-- C7.  Descriptor equivalence: `@weekly` compiles (via the standard parser)
to exactly the same Compiled Schedule as the explicit spec `"0 0 * * 0"`:
second, minute and hour are the bit at the field minimum, day-of-month and
month are the full range with the wildcard bit, and day-of-week is bit 0
only, without the wildcard bit. -/
theorem weekly_equals_explicit_spec :
    ParseStandard "@weekly".toList = ParseStandard "0 0 * * 0".toList ∧
      ParseStandard "@weekly".toList =
        some (.ok (.spec ⟨1 <<< seconds.min, 1 <<< minutes.min, 1 <<< hours.min,
          all dom, all months, 1 <<< dow.min, .Local⟩)) :=
  ⟨rfl, rfl⟩

/-- C5.  The four final validations of `getRange` on resolved
`start`/`end`/`step` values: the sub-expression is accepted exactly when
`min ≤ start`, `end ≤ max`, `start ≤ end` and `step ≥ 1`; each violation
produces (in source order) the error that names the offending sub-expression
and the violated bound. -/
theorem rangeChecks_characterization (start endv step : Nat) (expr : Str) (r : bounds) :
    ((∃ u, rangeChecks start endv step expr r = .ok u) ↔
      (r.min ≤ start ∧ endv ≤ r.max ∧ start ≤ endv ∧ 1 ≤ step)) ∧
    (start < r.min →
      rangeChecks start endv step expr r = .error (.belowMinimum start r.min expr)) ∧
    (r.min ≤ start → r.max < endv →
      rangeChecks start endv step expr r = .error (.aboveMaximum endv r.max expr)) ∧
    (r.min ≤ start → endv ≤ r.max → endv < start →
      rangeChecks start endv step expr r = .error (.startBeyondEnd start endv expr)) ∧
    (r.min ≤ start → endv ≤ r.max → start ≤ endv → step = 0 →
      rangeChecks start endv step expr r = .error (.zeroStep expr)) := by
  unfold rangeChecks
  refine ⟨?_, ?_, ?_, ?_, ?_⟩
  · constructor
    · rintro ⟨u, hu⟩
      split_ifs at hu with h1 h2 h3 h4
      all_goals first | omega | cases hu
    · rintro ⟨h1, h2, h3, h4⟩
      refine ⟨(), ?_⟩
      split_ifs <;> first | rfl | omega
  all_goals intros; split_ifs <;> first | rfl | omega

/-- Witness for C5 at a concrete input: day-of-month has minimum 1, so a
resolved start of 0 is rejected with the below-minimum error naming the
sub-expression and the bound. -/
theorem rangeChecks_characterization_witness :
    rangeChecks 0 5 1 "0-5".toList dom = .error (.belowMinimum 0 1 "0-5".toList) :=
  (rangeChecks_characterization 0 5 1 "0-5".toList dom).2.1 (by decide)

/-- C10.  A field token consisting only of commas splits into no
sub-expressions at all, so `getField` returns mask 0 with no error; hence
`Parse` accepts the standard spec `", * * * *"` and compiles a minute mask
that permits no value. -/
theorem comma_only_field_empty_mask :
    (∀ (s : Str) (r : bounds), s ≠ [] → (∀ c ∈ s, c = ',') →
      getField s r = .ok 0) ∧
    ParseStandard ", * * * *".toList =
      some (.ok (.spec ⟨1 <<< seconds.min, 0, all hours, all dom, all months,
        all dow, .Local⟩)) := by
  constructor
  · intro s r _ hs
    have : fieldsFunc (fun c => c == ',') s = [] :=
      fieldsFunc_all_sep _ s fun c hc => by simp [hs c hc]
    simp [getField, this, getFieldGo]
  · rfl

/-- Witness for C10 at a concrete input. -/
theorem comma_only_field_empty_mask_witness : getField ",,".toList minutes = .ok 0 :=
  comma_only_field_empty_mask.1 ",,".toList minutes (by decide) (by decide)

lemma indexChar_ge_neg_one (c : Char) (s : Str) : -1 ≤ indexChar c s := by
  unfold indexChar
  cases s.findIdx? (fun a => a == c) <;> simp <;> omega

/-- C9.  A spec that begins with `TZ=` or `CRON_TZ=` but contains no space
character makes `Parse` panic instead of returning: the timezone extraction
slices the spec up to the index of the first space, which is `-1`. -/
theorem tz_prefix_no_space_panics (p : Parser) (spec : Str)
    (hpre : List.isPrefixOf "TZ=".toList spec = true ∨
      List.isPrefixOf "CRON_TZ=".toList spec = true)
    (hnospace : ' ' ∉ spec) :
    p.Parse spec = none := by
  have hne : spec.isEmpty = false := by
    rcases hpre with h | h <;>
      · cases spec with
        | nil => simp [List.isPrefixOf] at h
        | cons a rest => rfl
  have hidx : indexChar ' ' spec = -1 := by
    unfold indexChar
    have : spec.findIdx? (fun a => a == ' ') = none := by
      rw [List.findIdx?_eq_none_iff]
      intro x hx
      simp only [beq_eq_false_iff_ne, ne_eq]
      exact fun hxc => hnospace (hxc ▸ hx)
    rw [this]
  have hpre' : (List.isPrefixOf "TZ=".toList spec ||
      List.isPrefixOf "CRON_TZ=".toList spec) = true := by
    rcases hpre with h | h <;> simp only [h, Bool.true_or, Bool.or_true]
  have hlt : indexChar ' ' spec < indexChar '=' spec + 1 := by
    have := indexChar_ge_neg_one '=' spec
    omega
  unfold Parser.Parse extractTZ
  rw [hne, hpre']
  simp only [if_true, Bool.false_eq_true, if_false]
  rw [if_pos (Or.inl hlt)]

/-- Witness for C9 at a concrete input. -/
theorem tz_prefix_no_space_panics_witness : ParseStandard "TZ=UTC".toList = none :=
  tz_prefix_no_space_panics standardParser "TZ=UTC".toList (Or.inl (by decide))
    (by decide)

/-- C1 counterexample.  Compiling `"*/2"` for minutes yields the stepped
numeric mask but with the wildcard bit CLEAR: `getRange` erases the wildcard
marker whenever the trailing step exceeds 1, so the claim that the wildcard
bit is set for every positive step fails at step 2. -/
theorem star_step_clears_wildcard_cx :
    getRange "*/2".toList minutes = .ok (getBits 0 59 2) ∧
      (getBits 0 59 2).testBit 63 = false ∧ starBit.testBit 63 = true :=
  ⟨rfl, by decide, by decide⟩

/-- C1 (amended).  Compiling `*/s` (or `?/s`) against bounds `(min, max)`
yields the numeric bits of `min..max` stepped by `s`, with the wildcard bit
set exactly when `s = 1`: a step greater than 1 clears the wildcard bit. -/
theorem star_step_range (w st : Str) (r : bounds) (s : Nat)
    (hw : w = "*".toList ∨ w = "?".toList)
    (hst : mustParseInt st = .ok s)
    (hslash : '/' ∉ st)
    (hs : 1 ≤ s) (hr : r.min ≤ r.max) :
    getRange (w ++ '/' :: st) r =
      .ok (getBits r.min r.max s ||| if s > 1 then 0 else starBit) := by
  have hsplit : splitOnChar '/' (w ++ '/' :: st) = [w, st] := by
    rw [splitOnChar_append '/' w st (by rcases hw with rfl | rfl <;> decide),
      splitOnChar_no_sep '/' st hslash]
  have hlah : splitOnChar '-' w = [w] := by rcases hw with rfl | rfl <;> rfl
  have hcond : (w == "*".toList || w == "?".toList) = true := by
    rcases hw with rfl | rfl <;> rfl
  have e1 : getRangeStage1 (w ++ '/' :: st) [w] r = .ok (r.min, r.max, starBit) := by
    simp only [getRangeStage1, List.headD_cons, hcond, if_true]
  have e2 : ∀ sd, getRangeStage2 (w ++ '/' :: st) [w, st] sd r.max starBit r =
      .ok (s, r.max, if s > 1 then 0 else starBit) := by
    intro sd
    simp [getRangeStage2, hst]
  have e3 : rangeChecks r.min r.max s (w ++ '/' :: st) r = .ok () := by
    unfold rangeChecks
    split_ifs <;> first | rfl | omega
  simp only [getRange, hsplit, List.headD_cons, hlah, e1, e2, e3]

/-- Witness for C1 (amended) at a concrete input. -/
theorem star_step_range_witness :
    getRange ("*".toList ++ '/' :: "2".toList) minutes =
      .ok (getBits 0 59 2 ||| if 2 > 1 then 0 else starBit) :=
  star_step_range "*".toList "2".toList minutes 2 (Or.inl rfl) rfl (by decide)
    (by decide) (by decide)

/-- C3.  The `N/step` shorthand: a single value with a step compiles to the
range from `N` to the field maximum stepped by `step`; concretely `"5/15"`
for minutes yields exactly bits {5, 20, 35, 50}, wildcard bit clear. -/
theorem single_value_step_shorthand :
    (∀ (nt st : Str) (r : bounds) (n s : Nat),
      parseIntOrName nt r.names = .ok n → mustParseInt st = .ok s →
      '-' ∉ nt → '/' ∉ nt → '/' ∉ st →
      nt ≠ "*".toList → nt ≠ "?".toList →
      r.min ≤ n → n ≤ r.max → 1 ≤ s →
      getRange (nt ++ '/' :: st) r = .ok (getBits n r.max s)) ∧
    getField "5/15".toList minutes = .ok (2 ^ 5 + 2 ^ 20 + 2 ^ 35 + 2 ^ 50) ∧
      ((2 ^ 5 + 2 ^ 20 + 2 ^ 35 + 2 ^ 50 : Nat)).testBit 63 = false := by
  refine ⟨?_, rfl, by decide⟩
  intro nt st r n s hn hst hhy hsl1 hsl2 hstar hq hmin hmax hs
  have hsplit : splitOnChar '/' (nt ++ '/' :: st) = [nt, st] := by
    rw [splitOnChar_append '/' nt st hsl1, splitOnChar_no_sep '/' st hsl2]
  have hlah : splitOnChar '-' nt = [nt] := splitOnChar_no_sep '-' nt hhy
  have hcond : (nt == "*".toList || nt == "?".toList) = false := by
    simp only [Bool.or_eq_false_iff, beq_eq_false_iff_ne, ne_eq]
    exact ⟨hstar, hq⟩
  have hsd : (([nt] : List Str).length == 1) = true := rfl
  have e1 : getRangeStage1 (nt ++ '/' :: st) [nt] r = .ok (n, n, 0) := by
    simp only [getRangeStage1, List.headD_cons, hcond, Bool.false_eq_true,
      if_false, hn]
  have e2 : getRangeStage2 (nt ++ '/' :: st) [nt, st] true n 0 r =
      .ok (s, r.max, 0) := by
    simp [getRangeStage2, hst]
  have e3 : rangeChecks n r.max s (nt ++ '/' :: st) r = .ok () := by
    unfold rangeChecks
    split_ifs <;> first | rfl | omega
  simp only [getRange, hsplit, List.headD_cons, hlah, hsd, e1, e2, e3,
    Nat.or_zero]

/-- Witness for C3 at a concrete input. -/
theorem single_value_step_shorthand_witness :
    getRange ("5".toList ++ '/' :: "15".toList) minutes = .ok (getBits 5 59 15) :=
  single_value_step_shorthand.1 "5".toList "15".toList minutes 5 15 rfl rfl
    (by decide) (by decide) (by decide) (by decide) (by decide) (by decide)
    (by decide) (by decide)

/-- C4 counterexample.  The sub-expression `"*-1-2"` has two hyphens in its
range part, yet `getRange` accepts it: the `*` branch is taken before the
hyphen count is ever examined, so no "too many hyphens" error is raised. -/
theorem star_hyphens_accepted_cx :
    getRange "*-1-2".toList minutes = .ok (getBits 0 59 1 ||| starBit) := rfl

lemma mustParseInt_error_shape {x : Str} {e : ParseErr}
    (h : mustParseInt x = .error e) :
    (∃ s, e = .failedParseInt s) ∨ ∃ n s, e = .negativeNumber n s := by
  unfold mustParseInt at h
  split at h
  · cases h
    exact Or.inl ⟨_, rfl⟩
  · split_ifs at h
    cases h
    exact Or.inr ⟨_, _, rfl⟩

lemma parseIntOrName_error_shape {x : Str} {names : Option (Str → Option Nat)}
    {e : ParseErr} (h : parseIntOrName x names = .error e) :
    (∃ s, e = .failedParseInt s) ∨ ∃ n s, e = .negativeNumber n s := by
  unfold parseIntOrName at h
  split at h
  · split at h
    · cases h
    · exact mustParseInt_error_shape h
  · exact mustParseInt_error_shape h

lemma getRangeStage1_hyphens {expr : Str} {lah : List Str} {r : bounds}
    (hne : lah ≠ [])
    (h : getRangeStage1 expr lah r = .error (.tooManyHyphens expr)) :
    3 ≤ lah.length ∧ lah.headD [] ≠ "*".toList ∧ lah.headD [] ≠ "?".toList ∧
      ∃ v, parseIntOrName (lah.headD []) r.names = .ok v := by
  unfold getRangeStage1 at h
  split_ifs at h with hc
  split at h
  case _ e heq =>
    cases h
    rcases parseIntOrName_error_shape heq with ⟨s, hs⟩ | ⟨n, s, hs⟩ <;> cases hs
  case _ start heq =>
    split at h
    case h_1 => cases h
    case h_2 =>
      split at h
      case _ e2 heq2 =>
        cases h
        rcases parseIntOrName_error_shape heq2 with ⟨s, hs⟩ | ⟨n, s, hs⟩ <;>
          cases hs
      case _ => cases h
    case h_3 =>
      rename_i hn1 hn2
      rw [Bool.not_eq_true, Bool.or_eq_false_iff] at hc
      have hcs := hc.1
      have hcq := hc.2
      rw [beq_eq_false_iff_ne] at hcs hcq
      have hlen : 3 ≤ lah.length := by
        rcases lah with _ | ⟨x, _ | ⟨y, _ | ⟨z, t⟩⟩⟩
        · exact absurd rfl hne
        · exact absurd rfl (hn1 x)
        · exact absurd rfl (hn2 x y)
        · simp only [List.length_cons]
          omega
      exact ⟨hlen, hcs, hcq, ⟨start, heq⟩⟩

lemma getRangeStage2_ne_hyphens {expr ex : Str} {ras : List Str} {sd : Bool}
    {e x0 : Nat} {r : bounds}
    (h : getRangeStage2 expr ras sd e x0 r = .error (.tooManyHyphens ex)) :
    False := by
  unfold getRangeStage2 at h
  split at h
  · cases h
  · split at h
    · rename_i e2 heq
      cases h
      rcases mustParseInt_error_shape heq with ⟨s, hs⟩ | ⟨n, s, hs⟩ <;> cases hs
    · cases h
  · cases h

lemma rangeChecks_ne_hyphens {s e st : Nat} {expr ex : Str} {r : bounds}
    (h : rangeChecks s e st expr r = .error (.tooManyHyphens ex)) : False := by
  unfold rangeChecks at h
  split_ifs at h <;> cases h

lemma getRange_hyphens_necessity {expr : Str} {r : bounds}
    (h : getRange expr r = .error (.tooManyHyphens expr)) :
    3 ≤ (splitOnChar '-' ((splitOnChar '/' expr).headD [])).length ∧
      (splitOnChar '-' ((splitOnChar '/' expr).headD [])).headD [] ≠ "*".toList ∧
      (splitOnChar '-' ((splitOnChar '/' expr).headD [])).headD [] ≠ "?".toList ∧
      ∃ v, parseIntOrName
        ((splitOnChar '-' ((splitOnChar '/' expr).headD [])).headD [])
        r.names = .ok v := by
  simp only [getRange] at h
  split at h
  case _ e heq1 =>
    cases h
    exact getRangeStage1_hyphens (splitPred_ne_nil _ _) heq1
  case _ start endv extra0 heq1 =>
    split at h
    case _ e heq2 =>
      cases h
      exact (getRangeStage2_ne_hyphens heq2).elim
    case _ step endf extra heq2 =>
      split at h
      case _ e heq3 =>
        cases h
        exact (rangeChecks_ne_hyphens heq3).elim
      case _ u heq3 => cases h

/-- C4 (amended).  The "too many hyphens" error is raised exactly when the
range part (the text before any `/`) splits on `-` into three or more
segments, its first segment is not `*`/`?`, and that first segment resolves
as an integer or name; it is raised in no other case.  A first segment of
`*`/`?` never produces the hyphens error however many hyphens follow (see
the counterexample, where such an expression compiles successfully), and
when the first segment fails to resolve, `getRange` returns that resolution
error (a failed-parse-int or negative-number error) instead. -/
theorem too_many_hyphens_error :
    (∀ (expr : Str) (r : bounds) (v : Nat),
      3 ≤ (splitOnChar '-' ((splitOnChar '/' expr).headD [])).length →
      (splitOnChar '-' ((splitOnChar '/' expr).headD [])).headD [] ≠ "*".toList →
      (splitOnChar '-' ((splitOnChar '/' expr).headD [])).headD [] ≠ "?".toList →
      parseIntOrName ((splitOnChar '-' ((splitOnChar '/' expr).headD [])).headD [])
        r.names = .ok v →
      getRange expr r = .error (.tooManyHyphens expr)) ∧
    (∀ (expr : Str) (r : bounds),
      getRange expr r = .error (.tooManyHyphens expr) →
      3 ≤ (splitOnChar '-' ((splitOnChar '/' expr).headD [])).length ∧
        (splitOnChar '-' ((splitOnChar '/' expr).headD [])).headD [] ≠ "*".toList ∧
        (splitOnChar '-' ((splitOnChar '/' expr).headD [])).headD [] ≠ "?".toList ∧
        ∃ v, parseIntOrName
          ((splitOnChar '-' ((splitOnChar '/' expr).headD [])).headD [])
          r.names = .ok v) ∧
    (∀ (expr : Str) (r : bounds),
      (((splitOnChar '-' ((splitOnChar '/' expr).headD [])).headD [] == "*".toList) ||
        ((splitOnChar '-' ((splitOnChar '/' expr).headD [])).headD [] == "?".toList)) =
          true →
      getRange expr r ≠ .error (.tooManyHyphens expr)) ∧
    (∀ (expr : Str) (r : bounds) (e : ParseErr),
      3 ≤ (splitOnChar '-' ((splitOnChar '/' expr).headD [])).length →
      (splitOnChar '-' ((splitOnChar '/' expr).headD [])).headD [] ≠ "*".toList →
      (splitOnChar '-' ((splitOnChar '/' expr).headD [])).headD [] ≠ "?".toList →
      parseIntOrName ((splitOnChar '-' ((splitOnChar '/' expr).headD [])).headD [])
        r.names = .error e →
      getRange expr r = .error e ∧
        ((∃ s, e = .failedParseInt s) ∨ ∃ n s, e = .negativeNumber n s)) := by
  refine ⟨?_, ?_, ?_, ?_⟩
  · intro expr r v hlen hstar hq hv
    obtain ⟨a, b, c, rest, hm⟩ :
        ∃ a b c rest, splitOnChar '-' ((splitOnChar '/' expr).headD []) =
          a :: b :: c :: rest := by
      match hs : splitOnChar '-' ((splitOnChar '/' expr).headD []) with
      | [] => rw [hs] at hlen; simp at hlen
      | [x] => rw [hs] at hlen; simp at hlen
      | [x, y] => rw [hs] at hlen; simp at hlen
      | x :: y :: z :: rest => exact ⟨x, y, z, rest, rfl⟩
    rw [hm, List.headD_cons] at hstar hq hv
    have hcond : (a == "*".toList || a == "?".toList) = false := by
      simp only [Bool.or_eq_false_iff, beq_eq_false_iff_ne, ne_eq]
      exact ⟨hstar, hq⟩
    have e1 : getRangeStage1 expr (a :: b :: c :: rest) r =
        .error (.tooManyHyphens expr) := by
      simp only [getRangeStage1, List.headD_cons, hcond, Bool.false_eq_true,
        if_false, hv]
    simp only [getRange, hm, e1]
  · intro expr r h
    exact getRange_hyphens_necessity h
  · intro expr r hc h
    obtain ⟨_, h1, h2, _⟩ := getRange_hyphens_necessity h
    rcases Bool.or_eq_true_iff.mp hc with hx | hx
    · exact h1 (beq_iff_eq.mp hx)
    · exact h2 (beq_iff_eq.mp hx)
  · intro expr r e hlen hstar hq herr
    refine ⟨?_, parseIntOrName_error_shape herr⟩
    obtain ⟨a, b, c, rest, hm⟩ :
        ∃ a b c rest, splitOnChar '-' ((splitOnChar '/' expr).headD []) =
          a :: b :: c :: rest := by
      match hs : splitOnChar '-' ((splitOnChar '/' expr).headD []) with
      | [] => rw [hs] at hlen; simp at hlen
      | [x] => rw [hs] at hlen; simp at hlen
      | [x, y] => rw [hs] at hlen; simp at hlen
      | x :: y :: z :: rest => exact ⟨x, y, z, rest, rfl⟩
    rw [hm, List.headD_cons] at hstar hq herr
    have hcond : (a == "*".toList || a == "?".toList) = false := by
      simp only [Bool.or_eq_false_iff, beq_eq_false_iff_ne, ne_eq]
      exact ⟨hstar, hq⟩
    have e1 : getRangeStage1 expr (a :: b :: c :: rest) r = .error e := by
      simp only [getRangeStage1, List.headD_cons, hcond, Bool.false_eq_true,
        if_false, herr]
    simp only [getRange, hm, e1]

/-- Witness for C4 (amended) at a concrete input. -/
theorem too_many_hyphens_error_witness :
    getRange "1-2-3".toList minutes = .error (.tooManyHyphens "1-2-3".toList) :=
  too_many_hyphens_error.1 "1-2-3".toList minutes 1 (by decide) (by decide)
    (by decide) rfl

lemma testBit_getBitsLoop {step mx : Nat} :
    ∀ fuel i b, (getBitsLoop step mx i fuel).testBit b = true → i ≤ b ∧ b ≤ mx := by
  intro fuel
  induction fuel with
  | zero => intro i b h; simp [getBitsLoop] at h
  | succ fuel ih =>
    intro i b h
    simp only [getBitsLoop] at h
    by_cases hi : i ≤ mx
    · rw [if_pos hi, Nat.testBit_or] at h
      rcases Bool.or_eq_true_iff.mp h with h1 | h2
      · simp only [Nat.testBit_mod_two_pow, Nat.testBit_shiftLeft,
          Bool.and_eq_true, decide_eq_true_eq, ge_iff_le,
          Nat.testBit_one_eq_true_iff_self_eq_zero] at h1
        omega
      · have := ih (i + step) b h2
        omega
    · rw [if_neg hi] at h
      simp at h

lemma testBit_getBits {mn mx step b : Nat} (hstep : 1 ≤ step)
    (h : (getBits mn mx step).testBit b = true) : mn ≤ b ∧ b ≤ mx := by
  unfold getBits at h
  by_cases h1 : step = 1
  · rw [if_pos h1] at h
    simp only [maxUint64, Nat.testBit_and, Nat.testBit_xor,
      Nat.testBit_mod_two_pow, Nat.testBit_shiftLeft,
      Nat.testBit_two_pow_sub_one, Bool.and_eq_true,
      decide_eq_true_eq, ge_iff_le] at h
    by_cases hb : b < 64 <;> by_cases hbm : mx + 1 ≤ b <;>
      simp [hb, hbm] at h <;> omega
  · rw [if_neg h1] at h
    exact testBit_getBitsLoop _ _ _ h

lemma testBit_starBit {b : Nat} (h : starBit.testBit b = true) : b = 63 := by
  simp only [starBit, Nat.testBit_shiftLeft, Bool.and_eq_true,
    decide_eq_true_eq, ge_iff_le, Nat.testBit_one_eq_true_iff_self_eq_zero] at h
  omega

lemma rangeChecks_ok_bounds {s e st : Nat} {expr : Str} {r : bounds} {u : Unit}
    (h : rangeChecks s e st expr r = .ok u) :
    r.min ≤ s ∧ e ≤ r.max ∧ s ≤ e ∧ 1 ≤ st := by
  unfold rangeChecks at h
  split_ifs at h <;> first | omega | cases h

lemma getRangeStage1_ok_extra {expr : Str} {lah : List Str} {r : bounds}
    {s e x : Nat} (h : getRangeStage1 expr lah r = .ok (s, e, x)) :
    x = 0 ∨ x = starBit := by
  unfold getRangeStage1 at h
  split_ifs at h
  · cases h; right; rfl
  · split at h
    · cases h
    · split at h
      · cases h; left; rfl
      · split at h
        · cases h
        · cases h; left; rfl
      · cases h

lemma getRangeStage2_ok_extra {expr : Str} {ras : List Str} {sd : Bool}
    {e x0 : Nat} {r : bounds} {st ef x : Nat}
    (h : getRangeStage2 expr ras sd e x0 r = .ok (st, ef, x)) :
    x = x0 ∨ x = 0 := by
  unfold getRangeStage2 at h
  split at h
  · cases h; left; rfl
  · split at h
    · cases h
    · cases h
      split_ifs
      · right; rfl
      · left; rfl
  · cases h

/-- The invariant of the spec's Compiled Field Mask: set bits lie within the
field's `[min, max]` range or at the wildcard position 63. -/
def maskOk (m : Nat) (r : bounds) : Prop :=
  ∀ b, m.testBit b = true → (r.min ≤ b ∧ b ≤ r.max) ∨ b = 63

lemma getRange_ok_maskOk {expr : Str} {r : bounds} {m : Nat}
    (h : getRange expr r = .ok m) : maskOk m r := by
  simp only [getRange] at h
  split at h
  · cases h
  case _ start endv extra0 heq1 =>
    split at h
    · cases h
    case _ step endf extra heq2 =>
      split at h
      · cases h
      case _ u heq3 =>
        cases h
        obtain ⟨hs1, hs2, _, hs4⟩ := rangeChecks_ok_bounds heq3
        have hx0 := getRangeStage1_ok_extra heq1
        have hx := getRangeStage2_ok_extra heq2
        intro b hb
        rw [Nat.testBit_or] at hb
        rcases Bool.or_eq_true_iff.mp hb with hbit | hbit
        · have := testBit_getBits hs4 hbit
          left
          omega
        · have hx' : extra = 0 ∨ extra = starBit := by
            rcases hx with rfl | rfl
            · exact hx0
            · exact Or.inl rfl
          rcases hx' with rfl | rfl

          · simp at hbit
          · right
            exact testBit_starBit hbit

lemma getFieldGo_ok_maskOk {r : bounds} :
    ∀ (ranges : List Str) (acc m : Nat),
      getFieldGo r ranges acc = .ok m →
      (∀ b, acc.testBit b = true → (r.min ≤ b ∧ b ≤ r.max) ∨ b = 63) →
      maskOk m r := by
  intro ranges
  induction ranges with
  | nil =>
    intro acc m h hacc
    cases h
    exact hacc
  | cons e rest ih =>
    intro acc m h hacc
    unfold getFieldGo at h
    split at h
    · cases h
    case _ bit heq =>
      refine ih _ m h ?_
      intro b hb
      rw [Nat.testBit_or] at hb
      rcases Bool.or_eq_true_iff.mp hb with hb | hb
      · exact hacc b hb
      · exact getRange_ok_maskOk heq b hb

lemma getField_ok_maskOk {f : Str} {r : bounds} {m : Nat}
    (h : getField f r = .ok m) : maskOk m r := by
  unfold getField at h
  refine getFieldGo_ok_maskOk _ 0 m h ?_
  intro b hb
  simp at hb

lemma maskOk_all (r : bounds) : maskOk (all r) r := by
  intro b hb
  unfold all at hb
  rw [Nat.testBit_or] at hb
  rcases Bool.or_eq_true_iff.mp hb with hb | hb
  · exact Or.inl (testBit_getBits (by omega) hb)
  · exact Or.inr (testBit_starBit hb)

lemma maskOk_min (r : bounds) (h : r.min ≤ r.max) : maskOk (1 <<< r.min) r := by
  intro b hb
  simp only [Nat.testBit_shiftLeft, Bool.and_eq_true, decide_eq_true_eq,
    ge_iff_le, Nat.testBit_one_eq_true_iff_self_eq_zero] at hb
  left
  omega

lemma parseDescriptor_ok_maskOk {d : Str} {loc : Location} {sched : SpecSchedule}
    (h : parseDescriptor d loc = .ok (.spec sched)) :
    maskOk sched.Second seconds ∧ maskOk sched.Minute minutes ∧
      maskOk sched.Hour hours ∧ maskOk sched.Dom dom ∧
      maskOk sched.Month months ∧ maskOk sched.Dow dow := by
  unfold parseDescriptor at h
  split_ifs at h <;>
    first
    | (cases h
       exact ⟨maskOk_min _ (by decide), maskOk_min _ (by decide),
         by first | exact maskOk_min _ (by decide) | exact maskOk_all _,
         by first | exact maskOk_min _ (by decide) | exact maskOk_all _,
         by first | exact maskOk_min _ (by decide) | exact maskOk_all _,
         by first | exact maskOk_min _ (by decide) | exact maskOk_all _⟩)
    | (split at h <;> cases h)
    | cases h

lemma compileFields_ok_maskOk {fs : List Str} {loc : Location}
    {sched : SpecSchedule} (h : compileFields fs loc = .ok (.spec sched)) :
    maskOk sched.Second seconds ∧ maskOk sched.Minute minutes ∧
      maskOk sched.Hour hours ∧ maskOk sched.Dom dom ∧
      maskOk sched.Month months ∧ maskOk sched.Dow dow := by
  unfold compileFields at h
  split at h
  · cases h
  case _ heq1 =>
    split at h
    · cases h
    case _ heq2 =>
      split at h
      · cases h
      case _ heq3 =>
        split at h
        · cases h
        case _ heq4 =>
          split at h
          · cases h
          case _ heq5 =>
            split at h
            · cases h
            case _ heq6 =>
              cases h
              exact ⟨getField_ok_maskOk heq1, getField_ok_maskOk heq2,
                getField_ok_maskOk heq3, getField_ok_maskOk heq4,
                getField_ok_maskOk heq5, getField_ok_maskOk heq6⟩

/-- C8.  Every field expression the Range/Step Compiler accepts compiles to
a mask whose set bits lie within the field's `[min, max]` range or at the
wildcard bit 63; and every successfully compiled schedule — whether from an
explicit field list or from a descriptor — satisfies this invariant on all
six of its field masks. -/
theorem accepted_masks_within_bounds :
    (∀ (expr : Str) (r : bounds) (m : Nat), getField expr r = .ok m → maskOk m r) ∧
    (∀ (p : Parser) (spec : Str) (sched : SpecSchedule),
      p.Parse spec = some (.ok (.spec sched)) →
      maskOk sched.Second seconds ∧ maskOk sched.Minute minutes ∧
        maskOk sched.Hour hours ∧ maskOk sched.Dom dom ∧
        maskOk sched.Month months ∧ maskOk sched.Dow dow) := by
  refine ⟨fun expr r m h => getField_ok_maskOk h, ?_⟩
  intro p spec sched h
  simp only [Parser.Parse] at h
  split at h
  · simp at h
  split at h
  · cases h
  · simp at h
  case _ loc spec2 _ =>
    split at h
    · split at h
      · simp at h
      · rw [Option.some_inj] at h
        exact parseDescriptor_ok_maskOk h
    · split at h
      · cases h
      · simp at h
      · rw [Option.some_inj] at h
        exact compileFields_ok_maskOk h

/-- Witness for C8 at a concrete input. -/
theorem accepted_masks_within_bounds_witness : maskOk (2 ^ 5) minutes :=
  accepted_masks_within_bounds.1 "5".toList minutes (2 ^ 5) rfl

/-- The amended wildcard criterion for one sub-expression: the range part's
first `-`-segment is `*`/`?` AND the effective step does not exceed 1 (no
step part, or a step part whose parsed value is at most 1).  This is the
condition under which `getRange` leaves the star bit in the mask. -/
def subWildcard (expr : Str) : Bool :=
  let rangeAndStep := splitOnChar '/' expr
  let lowAndHigh := splitOnChar '-' (rangeAndStep.headD [])
  ((lowAndHigh.headD [] == "*".toList) || (lowAndHigh.headD [] == "?".toList)) &&
    match rangeAndStep with
    | [_] => true
    | [_, st] =>
      match mustParseInt st with
      | .ok s => decide (s ≤ 1)
      | .error _ => false
    | _ => false

lemma getRangeStage1_ok_extra_iff {expr : Str} {lah : List Str} {r : bounds}
    {s e x : Nat} (h : getRangeStage1 expr lah r = .ok (s, e, x)) :
    x = (if (lah.headD [] == "*".toList) || (lah.headD [] == "?".toList)
      then starBit else 0) := by
  unfold getRangeStage1 at h
  split_ifs at h with hc
  · cases h; exact (if_pos hc).symm
  · split at h
    · cases h
    · split at h
      · cases h; exact (if_neg hc).symm
      · split at h
        · cases h
        · cases h; exact (if_neg hc).symm
      · cases h

lemma getRange_ok_testBit63 {expr : Str} {r : bounds} {m : Nat}
    (hmax : r.max < 63) (h : getRange expr r = .ok m) :
    m.testBit 63 = subWildcard expr := by
  simp only [getRange] at h
  split at h
  · cases h
  case _ start endv extra0 heq1 =>
    split at h
    · cases h
    case _ step endf extra heq2 =>
      split at h
      · cases h
      case _ u heq3 =>
        cases h
        obtain ⟨_, hs2, _, hs4⟩ := rangeChecks_ok_bounds heq3
        have hg : (getBits start endf step).testBit 63 = false := by
          cases hgb : (getBits start endf step).testBit 63
          · rfl
          · have := testBit_getBits hs4 hgb
            omega
        rw [Nat.testBit_or, hg, Bool.false_or]
        have hx0 := getRangeStage1_ok_extra_iff heq1
        unfold getRangeStage2 at heq2
        split at heq2
        case _ x hras =>
          cases heq2
          rw [hras, List.headD_cons] at hx0
          simp only [subWildcard, hras, List.headD_cons, Bool.and_true]
          rw [hx0]
          split_ifs with hc
          · rw [hc]
            decide
          · rw [Bool.not_eq_true] at hc
            rw [hc]
            simp
        case _ x st hras =>
          split at heq2
          · cases heq2
          · rename_i sv hst
            rw [Except.ok.injEq, Prod.mk.injEq, Prod.mk.injEq] at heq2
            obtain ⟨h31, h32, h33⟩ := heq2
            rw [← h33]
            rw [hras, List.headD_cons] at hx0
            simp only [subWildcard, hras, List.headD_cons, hst]
            rw [hx0]
            by_cases hsv : sv > 1
            · rw [if_pos hsv]
              have hd : decide (sv ≤ 1) = false := by
                simp only [decide_eq_false_iff_not]
                omega
              rw [hd, Bool.and_false]
              simp
            · rw [if_neg hsv]
              have hd : decide (sv ≤ 1) = true := by
                simp only [decide_eq_true_eq]
                omega
              rw [hd, Bool.and_true]
              split_ifs with hc
              · rw [hc]
                decide
              · rw [Bool.not_eq_true] at hc
                rw [hc]
                simp
        case _ => cases heq2

lemma getFieldGo_testBit63 {r : bounds} (hmax : r.max < 63) :
    ∀ (ranges : List Str) (acc m : Nat),
      getFieldGo r ranges acc = .ok m →
      m.testBit 63 = (acc.testBit 63 || ranges.any subWildcard) := by
  intro ranges
  induction ranges with
  | nil =>
    intro acc m h
    cases h
    simp
  | cons e rest ih =>
    intro acc m h
    unfold getFieldGo at h
    split at h
    · cases h
    case _ bit heq =>
      have hrec := ih (acc ||| bit) m h
      rw [hrec, Nat.testBit_or, getRange_ok_testBit63 hmax heq, List.any_cons,
        Bool.or_assoc]

/-- C2 (amended).  For every field with `max < 63`, the wildcard bit (bit
63) of a successfully compiled field mask is set if and only if some
comma-separated sub-expression of the field text starts (before any `-`)
with `*` or `?` AND carries no step greater than 1 — not only when the whole
expression is exactly `*`/`?`: `"*/1"` and `"*,5"` also set it, while a step
greater than 1 clears it. -/
theorem wildcard_bit_characterization (f : Str) (r : bounds) (m : Nat)
    (hmax : r.max < 63) (h : getField f r = .ok m) :
    m.testBit 63 = true ↔
      ∃ e ∈ fieldsFunc (fun c => c == ',') f, subWildcard e = true := by
  unfold getField at h
  have := getFieldGo_testBit63 hmax _ 0 m h
  simp only [Nat.zero_testBit, Bool.false_or] at this
  rw [this, List.any_eq_true]

/-- Witness for C2 (amended) at a concrete input: `"*/1"` for minutes. -/
theorem wildcard_bit_characterization_witness :
    ((2 ^ 60 - 1 + 2 ^ 63 : Nat)).testBit 63 = true ↔
      ∃ e ∈ fieldsFunc (fun c => c == ',') "*/1".toList, subWildcard e = true :=
  wildcard_bit_characterization "*/1".toList minutes (2 ^ 60 - 1 + 2 ^ 63)
    (by decide) rfl

/-- C2 counterexample.  The field expression `"*/1"` is not literally `*` or
`?`, yet its compiled mask has the wildcard bit set: the "if and only if the
original textual expression was exactly `*` or `?`" claim fails. -/
theorem wildcard_bit_exact_star_cx :
    getField "*/1".toList minutes = .ok (2 ^ 60 - 1 + 2 ^ 63) ∧
      ((2 ^ 60 - 1 + 2 ^ 63 : Nat)).testBit 63 = true ∧
      "*/1".toList ≠ "*".toList ∧ "*/1".toList ≠ "?".toList :=
  ⟨rfl, by decide, by decide, by decide⟩

lemma testBit_lit_1 (i : Nat) : (1 : Nat).testBit i = decide (0 = i) := by
  have h : (1 : Nat) = 2 ^ 0 := rfl
  rw [h, Nat.testBit_two_pow]

lemma testBit_lit_64 (i : Nat) : (64 : Nat).testBit i = decide (6 = i) := by
  have h : (64 : Nat) = 2 ^ 6 := rfl
  rw [h, Nat.testBit_two_pow]

lemma testBit_lit_128 (i : Nat) : (128 : Nat).testBit i = decide (7 = i) := by
  have h : (128 : Nat) = 2 ^ 7 := rfl
  rw [h, Nat.testBit_two_pow]

lemma testBit_lit_2 (i : Nat) : (2 : Nat).testBit i = decide (1 = i) := by
  have h : (2 : Nat) = 2 ^ 1 := rfl
  rw [h, Nat.testBit_two_pow]

lemma or_and_of_and_eq_zero {x y m : Nat} (h : y &&& m = 0) :
    (x ||| y) &&& m = x &&& m := by
  apply Nat.eq_of_testBit_eq
  intro i
  have hy : (y.testBit i && m.testBit i) = false := by
    have := congrArg (fun t => Nat.testBit t i) h
    simpa [Nat.testBit_and] using this
  simp only [Nat.testBit_and, Nat.testBit_or]
  cases hxi : x.testBit i <;> cases hmi : m.testBit i <;>
    cases hyi : y.testBit i <;> simp_all

lemma effOptions_and_dowOptional (o : Nat) :
    effOptions o &&& DowOptional = o &&& DowOptional := by
  simp only [effOptions, DowOptional, Second, Dow, SecondOptional]
  split_ifs
  · rw [or_and_of_and_eq_zero (by decide : (64 : Nat) &&& 128 = 0),
      or_and_of_and_eq_zero (by decide : (1 : Nat) &&& 128 = 0)]
  · rw [or_and_of_and_eq_zero (by decide : (1 : Nat) &&& 128 = 0)]
  · rw [or_and_of_and_eq_zero (by decide : (64 : Nat) &&& 128 = 0)]
  · rfl

lemma effOptions_and_secondOptional (o : Nat) :
    effOptions o &&& SecondOptional = o &&& SecondOptional := by
  simp only [effOptions, DowOptional, Second, Dow, SecondOptional]
  split_ifs
  · rw [or_and_of_and_eq_zero (by decide : (64 : Nat) &&& 2 = 0),
      or_and_of_and_eq_zero (by decide : (1 : Nat) &&& 2 = 0)]
  · rw [or_and_of_and_eq_zero (by decide : (1 : Nat) &&& 2 = 0)]
  · rw [or_and_of_and_eq_zero (by decide : (64 : Nat) &&& 2 = 0)]
  · rfl

lemma pos_and_two_pow {x k : Nat} (h : x.testBit k = true) : 0 < x &&& 2 ^ k := by
  have hb : (x &&& 2 ^ k).testBit k = true := by
    simp [Nat.testBit_and, h, Nat.testBit_two_pow_self]
  have := Nat.testBit_implies_ge hb
  have hp : 0 < 2 ^ k := Nat.pos_pow_of_pos k (by omega)
  omega

lemma one_le_maxCount {o : Nat} (h : optCount o = 1) : 1 ≤ maxCount o := by
  unfold optCount at h
  have hmem : ∃ p ∈ places, (effOptions o &&& p > 0) := by
    by_cases h2 : o &&& SecondOptional > 0
    · refine ⟨Second, by decide, ?_⟩
      have hb : (effOptions o).testBit 0 = true := by
        simp only [effOptions]
        rw [if_pos h2]
        split_ifs <;>
          simp [Nat.testBit_or, Second, Dow, testBit_lit_1, testBit_lit_64]
      have := pos_and_two_pow hb
      simpa [Second] using this
    · have hdow : o &&& DowOptional > 0 := by
        rw [if_neg h2] at h
        split_ifs at h with h3
        · exact h3
        · omega
      refine ⟨Dow, by decide, ?_⟩
      have hb : (effOptions o).testBit 6 = true := by
        simp only [effOptions]
        rw [if_neg h2, if_pos hdow]
        simp [Nat.testBit_or, Dow, testBit_lit_64]
      have := pos_and_two_pow hb
      simpa [Dow] using this
  obtain ⟨p, hp, hpos⟩ := hmem
  have : p ∈ places.filter fun place => effOptions o &&& place > 0 :=
    List.mem_filter.mpr ⟨hp, by simpa using hpos⟩
  have := List.length_pos_of_mem this
  unfold maxCount
  omega

lemma filter_zip_length (opts : Nat) :
    ∀ (ps : List Nat) (ds : List Str), ds.length = ps.length →
      ((ps.zip ds).filter fun pd => opts &&& pd.1 > 0).length =
        (ps.filter fun p => opts &&& p > 0).length := by
  intro ps
  induction ps with
  | nil => intro ds _; simp
  | cons p ps ih =>
    intro ds hd
    cases ds with
    | nil => simp at hd
    | cons d ds =>
      simp only [List.length_cons, Nat.add_right_cancel_iff] at hd
      rw [List.zip_cons_cons]
      by_cases hc : opts &&& p > 0
      · rw [List.filter_cons_of_pos (by simpa using hc),
          List.filter_cons_of_pos (by simpa using hc)]
        simp [ih ds hd]
      · rw [List.filter_cons_of_neg (by simpa using hc),
          List.filter_cons_of_neg (by simpa using hc)]
        exact ih ds hd

lemma expandFields_spec (opts : Nat) :
    ∀ (pds : List (Nat × Str)) (fields : List Str),
      fields.length = (pds.filter fun pd => opts &&& pd.1 > 0).length →
      ∃ l, expandFields opts pds fields = some l ∧ l.length = pds.length ∧
        ((pds.zip l).filter (fun x => opts &&& x.1.1 > 0)).map (fun x => x.2) =
          fields ∧
        ∀ i, (hi : i < pds.length) → opts &&& (pds.get ⟨i, hi⟩).1 = 0 →
          l.getD i [] = (pds.get ⟨i, hi⟩).2 := by
  intro pds
  induction pds with
  | nil =>
    intro fields h
    simp only [List.filter_nil, List.length_nil] at h
    have hf : fields = [] := List.length_eq_zero.mp h
    subst hf
    exact ⟨[], rfl, rfl, rfl, fun i hi => by simp at hi⟩
  | cons pd rest ih =>
    intro fields h
    by_cases hc : opts &&& pd.1 > 0
    · rw [List.filter_cons_of_pos (by simpa using hc)] at h
      cases fields with
      | nil => simp at h
      | cons f fs =>
        simp only [List.length_cons, Nat.add_right_cancel_iff] at h
        obtain ⟨l, hl, hlen, hsel, hdef⟩ := ih fs h
        refine ⟨f :: l, ?_, by simp [hlen], ?_, ?_⟩
        · simp only [expandFields, if_pos hc, hl]
          rfl
        · rw [List.zip_cons_cons, List.filter_cons_of_pos (by simpa using hc),
            List.map_cons, hsel]
        · intro i hi hz
          cases i with
          | zero =>
            exfalso
            simp only [List.get] at hz
            omega
          | succ j =>
            simp only [List.getD_cons_succ, List.get]
            exact hdef j (by simpa using hi) (by simpa using hz)
    · rw [List.filter_cons_of_neg (by simpa using hc)] at h
      obtain ⟨l, hl, hlen, hsel, hdef⟩ := ih fields h
      refine ⟨pd.2 :: l, ?_, by simp [hlen], ?_, ?_⟩
      · simp only [expandFields, if_neg hc, hl]
        rfl
      · rw [List.zip_cons_cons, List.filter_cons_of_neg (by simpa using hc), hsel]
      · intro i hi hz
        cases i with
        | zero => rfl
        | succ j =>
          simp only [List.getD_cons_succ, List.get]
          exact hdef j (by simpa using hi) (by simpa using hz)

lemma places_defaults_get (i : Nat) (hi : i < 6) :
    (places.zip defaults).get ⟨i, hi⟩ =
      (places.get ⟨i, hi⟩, defaults.get ⟨i, hi⟩) := by
  interval_cases i <;> rfl

/-- C6.  With exactly one optional flag configured and a token list of
exactly the configured minimum length, `normalizeFields` synthesizes the
missing token (appending `*` when day-of-week is the optional, prepending
`0` when second is) and distributes: the result has exactly six tokens,
the configured fields take the (synthesized) tokens in order, and every
unconfigured field gets its fixed default (`0` for second/minute/hour, `*`
for dom/month/dow). -/
theorem normalize_one_optional (options : Nat) (fields : List Str)
    (hopt : optCount options = 1)
    (hlen : fields.length = minCount options) :
    ∃ out, normalizeFields fields options = some (.ok out) ∧
      out.length = 6 ∧
      (((places.zip defaults).zip out).filter
          (fun x => effOptions options &&& x.1.1 > 0)).map (fun x => x.2) =
        (if options &&& DowOptional > 0 then fields ++ ["*".toList]
         else "0".toList :: fields) ∧
      (∀ i, (hi : i < 6) → effOptions options &&& places.get ⟨i, hi⟩ = 0 →
        out.getD i [] = defaults.get ⟨i, hi⟩) := by
  have hmx1 : 1 ≤ maxCount options := one_le_maxCount hopt
  have hlen' : fields.length = maxCount options - 1 := by
    rw [hlen]
    unfold minCount
    rw [hopt]
  have hmx : (places.filter fun place => effOptions options &&& place > 0).length
      = maxCount options := rfl
  by_cases hdow : options &&& DowOptional > 0
  · have hflen : (fields ++ [defaults.getD 5 []]).length =
        ((places.zip defaults).filter
          fun pd => effOptions options &&& pd.1 > 0).length := by
      rw [filter_zip_length (effOptions options) places defaults rfl, hmx,
        List.length_append]
      simp only [List.length_cons, List.length_nil]
      omega
    obtain ⟨l, hl, hlen6, hsel, hdef⟩ :=
      expandFields_spec (effOptions options) (places.zip defaults)
        (fields ++ [defaults.getD 5 []]) hflen
    have hnorm : normalizeFields fields options = some (.ok l) := by
      simp only [normalizeFields]
      rw [hopt]
      rw [if_neg (by omega : ¬(1 : Nat) > 1)]
      rw [hmx]
      rw [if_neg (show ¬(fields.length < maxCount options - 1 ∨
        fields.length > maxCount options) by omega)]
      rw [if_pos (show maxCount options - 1 < maxCount options ∧
        fields.length = maxCount options - 1 from ⟨by omega, by omega⟩)]
      rw [if_pos (show effOptions options &&& DowOptional > 0 by
        rw [effOptions_and_dowOptional]; exact hdow)]
      simp only [normalizeTail, hl]
    refine ⟨l, hnorm, by simpa using hlen6, ?_, ?_⟩
    · rw [if_pos hdow]
      exact hsel
    · intro i hi hz
      have h6 : i < (places.zip defaults).length := hi
      have hd := hdef i h6 (by rw [places_defaults_get i hi]; exact hz)
      rw [places_defaults_get i hi] at hd
      exact hd
  · have hsec : options &&& SecondOptional > 0 := by
      by_contra hno
      unfold optCount at hopt
      rw [if_neg hno, if_neg hdow] at hopt
      simp at hopt
    have hflen : (defaults.getD 0 [] :: fields).length =
        ((places.zip defaults).filter
          fun pd => effOptions options &&& pd.1 > 0).length := by
      rw [filter_zip_length (effOptions options) places defaults rfl, hmx,
        List.length_cons]
      omega
    obtain ⟨l, hl, hlen6, hsel, hdef⟩ :=
      expandFields_spec (effOptions options) (places.zip defaults)
        (defaults.getD 0 [] :: fields) hflen
    have hnorm : normalizeFields fields options = some (.ok l) := by
      simp only [normalizeFields]
      rw [hopt]
      rw [if_neg (by omega : ¬(1 : Nat) > 1)]
      rw [hmx]
      rw [if_neg (show ¬(fields.length < maxCount options - 1 ∨
        fields.length > maxCount options) by omega)]
      rw [if_pos (show maxCount options - 1 < maxCount options ∧
        fields.length = maxCount options - 1 from ⟨by omega, by omega⟩)]
      rw [if_neg (show ¬effOptions options &&& DowOptional > 0 by
        rw [effOptions_and_dowOptional]; exact hdow)]
      rw [if_pos (show effOptions options &&& SecondOptional > 0 by
        rw [effOptions_and_secondOptional]; exact hsec)]
      simp only [normalizeTail, hl]
    refine ⟨l, hnorm, by simpa using hlen6, ?_, ?_⟩
    · rw [if_neg hdow]
      exact hsel
    · intro i hi hz
      have h6 : i < (places.zip defaults).length := hi
      have hd := hdef i h6 (by rw [places_defaults_get i hi]; exact hz)
      rw [places_defaults_get i hi] at hd
      exact hd

/-- Witness for C6 at a concrete input: a parser configured
`Minute | Hour | Dom | Month | DowOptional` given four tokens. -/
theorem normalize_one_optional_witness :
    ∃ out, normalizeFields ["1".toList, "2".toList, "3".toList, "4".toList]
        (Minute ||| Hour ||| Dom ||| Month ||| DowOptional) =
        some (.ok out) ∧
      out.length = 6 ∧
      (((places.zip defaults).zip out).filter
          (fun x => effOptions (Minute ||| Hour ||| Dom ||| Month ||| DowOptional)
            &&& x.1.1 > 0)).map (fun x => x.2) =
        (if (Minute ||| Hour ||| Dom ||| Month ||| DowOptional) &&& DowOptional > 0
         then ["1".toList, "2".toList, "3".toList, "4".toList] ++ ["*".toList]
         else "0".toList ::
           ["1".toList, "2".toList, "3".toList, "4".toList]) ∧
      (∀ i, (hi : i < 6) →
        effOptions (Minute ||| Hour ||| Dom ||| Month ||| DowOptional) &&&
          places.get ⟨i, hi⟩ = 0 →
        out.getD i [] = defaults.get ⟨i, hi⟩) :=
  normalize_one_optional (Minute ||| Hour ||| Dom ||| Month ||| DowOptional)
    ["1".toList, "2".toList, "3".toList, "4".toList] (by decide) (by decide)
